import Mathlib

/-!
Verification of the client-side search pipeline of the php.net website
(`PHPSearch` module): index normalization (`processIndex`), the localStorage
index cache with a 14-day TTL (`loadLanguageIndex`), the English-language
fallback loader (`loadLanguageIndexWithFallback`), and the post-engine
boost-and-sort ranking step (`search`).

The definitions below are a shallow embedding of the JavaScript source.
JavaScript strings are Lean `String`s; JS numbers used for epoch-millisecond
times are `Int` (exact in the relevant range); fuzzy-engine scores are `Rat`;
a rejected promise / thrown exception is the `Except.error` case; the
localStorage key-value store is an association list read through
`List.lookup` (a later `setItem` shadows an earlier binding, which models
overwriting).
-/

namespace PHPSearch

/-- `MILLISECONDS_PER_DAY` from the source: `24 * 60 * 60 * 1000`. -/
def MILLISECONDS_PER_DAY : Int := 24 * 60 * 60 * 1000

/-- `CACHE_DAYS` from the source: `14`. -/
def CACHE_DAYS : Int := 14

/-- JavaScript `String.prototype.split` specialized to the separator `"::"`
(the only separator the source uses, in `name.split("::")`): splits at
non-overlapping occurrences of `"::"` found left to right. -/
def splitOnColons : List Char → List (List Char)
  | [] => [[]]
  | ':' :: ':' :: rest => [] :: splitOnColons rest
  | c :: rest =>
    match splitOnColons rest with
    | [] => [[c]]
    | seg :: segs => (c :: seg) :: segs

/-- Joins segments back with the `"::"` separator; inverse of
`splitOnColons`, used to state what the split decomposes. -/
def joinColons : List (List Char) → List Char
  | [] => []
  | [seg] => seg
  | seg :: segs => seg ++ ':' :: ':' :: joinColons segs

/-- Whether `"::"` occurs anywhere in the string (as a character pair). -/
def hasColonPair : List Char → Bool
  | [] => false
  | ':' :: ':' :: _ => true
  | _ :: rest => hasColonPair rest

/-- Modelled from the claim's words (C4): the suffix of `s` strictly after
the last (rightmost) index at which the substring `"::"` occurs, or `none`
when `"::"` does not occur. Occurrences may overlap, so this can differ
from the last segment of the left-to-right non-overlapping split. -/
def suffixAfterLastOcc : List Char → Option (List Char)
  | [] => none
  | c :: rest =>
    match suffixAfterLastOcc rest with
    | some t => some t
    | none =>
      match c, rest with
      | ':', ':' :: tail => some tail
      | _, _ => none

/-- JavaScript `s.startsWith(p)`: `p` is a prefix of `s`. -/
def jsStartsWith (s p : String) : Bool := p.data.isPrefixOf s.data

/-- One entry of the raw search index (`search-index.php` response): the
object key `id` together with the 3-tuple `[name, description, tag]`.
A JS empty/absent (falsy) name is modelled as the empty string. -/
structure RawEntry where
  id : String
  name : String
  description : String
  tag : String
deriving DecidableEq, Repr

/-- The raw index, in `Object.entries` order. -/
abbrev RawIndex := List RawEntry

/-- A normalized search item as built by `processIndex`. -/
structure SearchItem where
  id : String
  name : String
  description : String
  tag : String
  type : String
  methodName : String
deriving DecidableEq, Repr

/-- The `switch (tag)` statement inside `processIndex`, written as the
equivalent decision chain (`set`, `book`, `reference` fall through to the
same branch in the source). -/
def tagType (tag : String) : String :=
  if tag = "phpdoc:varentry" then "Variable"
  else if tag = "refentry" then "Function"
  else if tag = "phpdoc:exceptionref" then "Exception"
  else if tag = "phpdoc:classref" then "Class"
  else if tag = "set" ∨ tag = "book" ∨ tag = "reference" then "Extension"
  else "General"

/-- The body of the `.map` callback in `processIndex`: `null` (here `none`)
for a falsy name, otherwise the normalized item, with
`methodName: name.split("::").pop()` (the final split segment; the split of
any string is nonempty, so the `getLastD` default is never used). -/
def normalizeEntry (e : RawEntry) : Option SearchItem :=
  if e.name = "" then none
  else some
    { id := e.id
      name := e.name
      description := e.description
      tag := e.tag
      type := tagType e.tag
      methodName := String.mk ((splitOnColons e.name.data).getLastD []) }

/-- `processIndex`: `Object.entries(index).map(...).filter(Boolean)`. -/
def processIndex (index : RawIndex) : List SearchItem :=
  (index.map normalizeEntry).filterMap id

/-- A value held by `localStorage` under a `search-<language>` key, as the
cache-reading code distinguishes stored strings:
`emptyString` is the stored empty string `""` (falsy, so `if (cache)` skips
it; also not valid JSON); `invalidJson` is any nonempty string on which
`JSON.parse` throws; `entry data time` is the serialized form of
`{data, time}` that a successful cache write produces. -/
inductive StoredValue
  | emptyString
  | invalidJson
  | entry (data : List SearchItem) (time : Int)
deriving DecidableEq, Repr

/-- The localStorage state: an association list; `List.lookup` returns the
most recent binding, so consing models `setItem` overwriting. -/
abbrev Store := List (String × StoredValue)

/-- `localStorage.setItem key v`. -/
def storeSet (st : Store) (k : String) (v : StoredValue) : Store := (k, v) :: st

/-- `localStorage.getItem key` (`none` models the JS `null` return). -/
def storeGet (st : Store) (k : String) : Option StoredValue := List.lookup k st

/-- The ways a load can fail: `fetchFailed` covers a network error, an HTTP
error, or a non-JSON response body (the `fetch`/`response.json()` chain
rejecting); `cacheCorrupt` is `JSON.parse` throwing on a corrupted cache
entry. -/
inductive LoadError
  | fetchFailed
  | cacheCorrupt
deriving DecidableEq, Repr

/-- The environment a load runs in: the current `Date.now()`, the network
(`fetchResult language` is `none` when the fetch/JSON chain for that
language rejects, `some raw` when it yields the raw index), and whether
`localStorage.setItem` throws (quota exceeded, storage disabled, ...). -/
structure LoadEnv where
  now : Int
  fetchResult : String → Option RawIndex
  writeFails : Bool

/-- The fetch-and-cache tail of `loadLanguageIndex` (source lines following
the cache check): fetch, normalize with `processIndex`, then
`try { localStorage.setItem(...) } catch (e) { /- continue -/ }`, and
return the freshly built items either way. -/
def fetchAndCache (env : LoadEnv) (st : Store) (language : String) :
    Except LoadError (List SearchItem × Store) :=
  match env.fetchResult language with
  | none => .error .fetchFailed
  | some raw =>
    let items := processIndex raw
    let st2 := if env.writeFails then st
      else storeSet st ("search-" ++ language) (.entry items env.now)
    .ok (items, st2)

/-- `loadLanguageIndex`: read `localStorage` under `search-<language>`;
a truthy stored string is `JSON.parse`d (unguarded, so a corrupt value
throws); a fresh entry (`Date.now() < time + CACHE_DAYS *
MILLISECONDS_PER_DAY`) is returned as is; otherwise fall through to the
fetch. The returned pair carries the resulting store state. -/
def loadLanguageIndex (env : LoadEnv) (st : Store) (language : String) :
    Except LoadError (List SearchItem × Store) :=
  match storeGet st ("search-" ++ language) with
  | some .emptyString => fetchAndCache env st language
  | some .invalidJson => .error .cacheCorrupt
  | some (.entry data time) =>
    if env.now < time + CACHE_DAYS * MILLISECONDS_PER_DAY then .ok (data, st)
    else fetchAndCache env st language
  | none => fetchAndCache env st language

/-- `loadLanguageIndexWithFallback`: try `loadLanguageIndex(language)`; on
failure retry the full load with `"en"` unless `language` already is
`"en"`, in which case rethrow. -/
def loadLanguageIndexWithFallback (env : LoadEnv) (st : Store)
    (language : String) : Except LoadError (List SearchItem × Store) :=
  match loadLanguageIndex env st language with
  | .ok r => .ok r
  | .error e =>
    if language = "en" then .error e
    else loadLanguageIndexWithFallback env st "en"
termination_by (if language = "en" then 0 else 1)
decreasing_by simp_all

/-- Observer for C1: the list of languages `loadLanguageIndexWithFallback`
attempts, in order (one element per `loadLanguageIndex` call). -/
def loadAttemptLanguages (env : LoadEnv) (st : Store) (language : String) :
    List String :=
  match loadLanguageIndex env st language with
  | .ok _ => [language]
  | .error _ =>
    if language = "en" then [language]
    else language :: loadAttemptLanguages env st "en"
termination_by (if language = "en" then 0 else 1)
decreasing_by simp_all

/-- One `{item, score}` pair produced by the external fuzzy engine. -/
structure SearchResult where
  item : SearchItem
  score : Rat
deriving DecidableEq, Repr

/-- The boost step of `search`: `if (result.item.id.startsWith("language"))
result.score += 10;` — the engine hands back fresh result objects each
call, so the in-place score update is a per-call record update. -/
def boostResult (r : SearchResult) : SearchResult :=
  if jsStartsWith r.item.id "language" then { r with score := r.score + 10 }
  else r

/-- Stable insertion for the descending-by-score sort: a result is placed
before the first earlier-ranked element whose score does not exceed it, so
equal scores keep their original relative order. -/
def insertDesc (r : SearchResult) : List SearchResult → List SearchResult
  | [] => [r]
  | x :: xs => if x.score ≤ r.score then r :: x :: xs else x :: insertDesc r xs

/-- `results.sort((a, b) => b.score - a.score)`: ECMAScript `Array#sort` is
stable and, with this comparator, orders by descending score; its output is
the unique stable descending-by-score permutation, computed here by stable
insertion sort. -/
def sortDesc : List SearchResult → List SearchResult
  | [] => []
  | r :: rs => insertDesc r (sortDesc rs)

/-- `search(query, fuzzyhound)`: delegate to the engine, boost
language-reference matches, then sort by descending score. -/
def search (query : String) (engine : String → List SearchResult) :
    List SearchResult :=
  sortDesc ((engine query).map boostResult)

/-- Concrete fixture: a plain item whose id matches no boost prefix. -/
def mkPlainItem (id : String) : SearchItem :=
  { id := id, name := id, description := "", tag := "", type := "General",
    methodName := id }

/-- Concrete fixture: a raw entry with a method-style (`"::"`) name. -/
def entryDateTime : RawEntry :=
  { id := "datetime.format", name := "DateTime::format",
    description := "Formats", tag := "refentry" }

/-- Concrete fixture: a raw entry with a plain function name. -/
def entryStrlen : RawEntry :=
  { id := "function.strlen", name := "strlen",
    description := "Get string length", tag := "refentry" }

/-- Concrete fixture: a raw entry whose name has overlapping `"::"`
occurrences (at indices 1 and 2). -/
def entryOverlap : RawEntry :=
  { id := "x", name := "a:::b", description := "d", tag := "t" }

/-- Concrete fixture: a raw entry with a tag outside the fixed mapping. -/
def entryUnknownTag : RawEntry :=
  { id := "x", name := "n", description := "d", tag := "unknown-tag" }

/-- Concrete fixture: a raw entry with an empty (falsy) name. -/
def entryEmptyName : RawEntry :=
  { id := "dead", name := "", description := "d", tag := "" }

/-- Concrete fixture: the normalized form of `entryStrlen`. -/
def itemStrlen : SearchItem :=
  { id := "function.strlen", name := "strlen",
    description := "Get string length", tag := "refentry",
    type := "Function", methodName := "strlen" }

/-- Concrete fixture: a one-entry raw index for the English manual. -/
def sampleRawEn : RawIndex := [entryStrlen]

/-- Concrete fixture: an item whose id starts with `"language."`. -/
def itemLangDot : SearchItem := mkPlainItem "language.types.array"

/-- Concrete fixture: an item whose id starts with `"language"` but not
with `"language."`. -/
def itemLangX : SearchItem := mkPlainItem "languagex"

/-- Concrete fixture: an item whose id does not start with `"language"`. -/
def itemArrayMap : SearchItem := mkPlainItem "function.array-map"

/-- Concrete fixture: an engine returning a `"language."` item and a plain
item, tied at base score 5, the plain one first. -/
def engineTwoSample : String → List SearchResult :=
  fun _ => [⟨itemArrayMap, 5⟩, ⟨itemLangDot, 5⟩]

/-- Concrete fixture: an engine returning one unboosted result. -/
def engineOnePlain : String → List SearchResult :=
  fun _ => [⟨itemArrayMap, 5⟩]

/-- Concrete fixture: a network on which only the `en` index loads. -/
def envEnOnly : LoadEnv :=
  { now := 0
    fetchResult := fun l => if l = "en" then some sampleRawEn else none
    writeFails := false }

deriving instance DecidableEq for Except

/-! ### Lemmas about the `"::"` split -/

theorem splitOnColons_ne_nil : ∀ l, splitOnColons l ≠ [] := by
  intro l
  induction l using splitOnColons.induct <;> simp_all [splitOnColons]

theorem joinColons_splitOnColons : ∀ l, joinColons (splitOnColons l) = l := by
  intro l
  induction l using splitOnColons.induct with
  | case1 => rfl
  | case2 rest ih =>
    obtain ⟨s, ss, hs⟩ := List.exists_cons_of_ne_nil (splitOnColons_ne_nil rest)
    rw [hs] at ih
    simp [splitOnColons, hs, joinColons, ih]
  | case3 c rest hg hnil ih => exact absurd hnil (splitOnColons_ne_nil rest)
  | case4 c rest hg seg segs hrest ih =>
    rw [hrest] at ih
    simp only [splitOnColons, hrest]
    cases segs with
    | nil => simpa [joinColons] using ih
    | cons z zs => simpa [joinColons] using ih

theorem hasColonPair_cons_of_ne (c d : Char) (t : List Char)
    (h : ¬(c = ':' ∧ d = ':')) :
    hasColonPair (c :: d :: t) = hasColonPair (d :: t) := by
  rw [hasColonPair.eq_def]
  split
  · simp_all
  · next heq =>
    rw [List.cons.injEq, List.cons.injEq] at heq
    exact absurd ⟨heq.1, heq.2.1⟩ h
  · next x rest heq =>
    rw [List.cons.injEq] at heq
    rw [heq.2]

theorem hasColonPair_singleton (c : Char) : hasColonPair [c] = false := by
  rw [hasColonPair.eq_def]
  split <;> simp_all [hasColonPair]

theorem splitOnColons_of_no_pair :
    ∀ l, hasColonPair l = false → splitOnColons l = [l] := by
  intro l
  induction l using splitOnColons.induct with
  | case1 => intro _; rfl
  | case2 rest ih => intro h; rw [hasColonPair.eq_def] at h; simp at h
  | case3 c rest hg hnil ih => exact fun _ => absurd hnil (splitOnColons_ne_nil rest)
  | case4 c rest hg seg segs hrest ih =>
    intro h
    have hrest' : hasColonPair rest = false := by
      cases rest with
      | nil => rfl
      | cons d t =>
        have hcd : ¬(c = ':' ∧ d = ':') := by
          rintro ⟨hc, hd⟩
          exact hg t hc (by rw [hd])
        rw [hasColonPair_cons_of_ne c d t hcd] at h
        exact h
    have := ih hrest'
    rw [hrest] at this
    rw [List.cons.injEq] at this
    simp only [splitOnColons, hrest, this.1, this.2]

theorem splitOnColons_head_prefix :
    ∀ l, ∃ s ss, splitOnColons l = s :: ss ∧ s <+: l := by
  intro l
  induction l using splitOnColons.induct with
  | case1 => exact ⟨[], [], rfl, List.nil_prefix⟩
  | case2 rest ih =>
    exact ⟨[], splitOnColons rest, by simp [splitOnColons], List.nil_prefix⟩
  | case3 c rest hg hnil ih => exact absurd hnil (splitOnColons_ne_nil rest)
  | case4 c rest hg seg segs hrest ih =>
    obtain ⟨s, ss, hs, hpre⟩ := ih
    rw [hrest] at hs
    rw [List.cons.injEq] at hs
    refine ⟨c :: seg, segs, by simp only [splitOnColons, hrest], ?_⟩
    rw [← hs.1] at hpre
    obtain ⟨tail, htail⟩ := hpre
    exact ⟨tail, by rw [← htail]; rfl⟩

theorem splitOnColons_getLast_no_pair :
    ∀ l, hasColonPair ((splitOnColons l).getLastD []) = false := by
  intro l
  induction l using splitOnColons.induct with
  | case1 => rfl
  | case2 rest ih =>
    obtain ⟨s, ss, hs⟩ := List.exists_cons_of_ne_nil (splitOnColons_ne_nil rest)
    rw [hs] at ih
    simpa [splitOnColons, hs, List.getLastD_cons] using ih
  | case3 c rest hg hnil ih => exact absurd hnil (splitOnColons_ne_nil rest)
  | case4 c rest hg seg segs hrest ih =>
    rw [hrest] at ih
    simp only [splitOnColons, hrest]
    cases segs with
    | nil =>
      simp only [List.getLastD_cons, List.getLastD_nil] at ih ⊢
      cases seg with
      | nil => exact hasColonPair_singleton c
      | cons d t =>
        obtain ⟨s, ss, hs, hpre⟩ := splitOnColons_head_prefix rest
        rw [hrest] at hs
        rw [List.cons.injEq] at hs
        rw [← hs.1] at hpre
        have hd : ∃ u, rest = d :: u := by
          obtain ⟨tail, htail⟩ := hpre
          exact ⟨t ++ tail, by rw [← htail]; rfl⟩
        have hcd : ¬(c = ':' ∧ d = ':') := by
          rintro ⟨hc, hdd⟩
          obtain ⟨u, hu⟩ := hd
          rw [hdd] at hu
          exact hg u hc hu
        rw [hasColonPair_cons_of_ne c d t hcd]
        exact ih
    | cons z zs =>
      simpa [List.getLastD_cons] using ih

/-! ### Lemmas about the normalizer -/

theorem normalizeEntry_eq_none {e : RawEntry} :
    normalizeEntry e = none ↔ e.name = "" := by
  unfold normalizeEntry
  split <;> simp_all

theorem normalizeEntry_name {e : RawEntry} {it : SearchItem}
    (h : normalizeEntry e = some it) : it.name = e.name ∧ e.name ≠ "" := by
  unfold normalizeEntry at h
  split at h
  · exact absurd h (by simp)
  · next hne =>
    rw [Option.some.injEq] at h
    exact ⟨by rw [← h], hne⟩

/-! ### Lemmas about the boost-and-sort step -/

/-- Descending order on scores, the relation `results.sort` establishes. -/
def scoreGE (a b : SearchResult) : Prop := b.score ≤ a.score

theorem boostResult_item (r : SearchResult) : (boostResult r).item = r.item := by
  unfold boostResult
  split <;> rfl

theorem boostResult_of_startsWith {r : SearchResult}
    (h : jsStartsWith r.item.id "language" = true) :
    boostResult r = { r with score := r.score + 10 } := by
  unfold boostResult
  rw [h]
  rfl

theorem boostResult_of_not_startsWith {r : SearchResult}
    (h : jsStartsWith r.item.id "language" = false) :
    boostResult r = r := by
  unfold boostResult
  rw [h]
  rfl

theorem mem_insertDesc {x r : SearchResult} {l : List SearchResult} :
    x ∈ insertDesc r l ↔ x = r ∨ x ∈ l := by
  induction l with
  | nil => simp [insertDesc]
  | cons y ys ih =>
    unfold insertDesc
    split
    · simp
    · simp only [List.mem_cons, ih]
      tauto

theorem insertDesc_perm (r : SearchResult) (l : List SearchResult) :
    List.Perm (insertDesc r l) (r :: l) := by
  induction l with
  | nil => exact List.Perm.refl _
  | cons y ys ih =>
    unfold insertDesc
    split
    · exact List.Perm.refl _
    · exact List.Perm.trans (ih.cons y) (List.Perm.swap r y ys)

theorem sortDesc_perm (l : List SearchResult) : List.Perm (sortDesc l) l := by
  induction l with
  | nil => exact List.Perm.refl _
  | cons r rs ih => exact List.Perm.trans (insertDesc_perm r (sortDesc rs)) (ih.cons r)

theorem pairwise_insertDesc {r : SearchResult} {l : List SearchResult}
    (h : l.Pairwise scoreGE) : (insertDesc r l).Pairwise scoreGE := by
  induction l with
  | nil => simp [insertDesc, scoreGE]
  | cons y ys ih =>
    rw [List.pairwise_cons] at h
    unfold insertDesc
    split
    · next hle =>
      rw [List.pairwise_cons]
      refine ⟨?_, List.pairwise_cons.mpr h⟩
      intro z hz
      rcases List.mem_cons.mp hz with hz | hz
      · rw [hz]; exact hle
      · exact le_trans (h.1 z hz) hle
    · next hlt =>
      rw [List.pairwise_cons]
      refine ⟨?_, ih h.2⟩
      intro z hz
      rcases mem_insertDesc.mp hz with hz | hz
      · rw [hz]
        exact le_of_lt (lt_of_not_le hlt)
      · exact h.1 z hz

theorem sortDesc_pairwise (l : List SearchResult) :
    (sortDesc l).Pairwise scoreGE := by
  induction l with
  | nil => simp [sortDesc]
  | cons r rs ih => exact pairwise_insertDesc ih

theorem filter_insertDesc (c : Rat) (r : SearchResult) (l : List SearchResult) :
    (insertDesc r l).filter (fun x => decide (x.score = c)) =
      if r.score = c then r :: l.filter (fun x => decide (x.score = c))
      else l.filter (fun x => decide (x.score = c)) := by
  induction l with
  | nil =>
    simp only [insertDesc, List.filter]
    split <;> simp_all
  | cons y ys ih =>
    unfold insertDesc
    split
    · next hle =>
      simp only [List.filter]
      split <;> split <;> simp_all
    · next hlt =>
      simp only [List.filter_cons, ih]
      by_cases hy : y.score = c <;> by_cases hr : r.score = c <;>
        simp_all

theorem filter_sortDesc (c : Rat) (l : List SearchResult) :
    (sortDesc l).filter (fun x => decide (x.score = c)) =
      l.filter (fun x => decide (x.score = c)) := by
  induction l with
  | nil => rfl
  | cons r rs ih =>
    calc (sortDesc (r :: rs)).filter (fun x => decide (x.score = c))
        = (insertDesc r (sortDesc rs)).filter (fun x => decide (x.score = c)) := rfl
      _ = if r.score = c then r :: (sortDesc rs).filter (fun x => decide (x.score = c))
            else (sortDesc rs).filter (fun x => decide (x.score = c)) :=
          filter_insertDesc c r (sortDesc rs)
      _ = (r :: rs).filter (fun x => decide (x.score = c)) := by
          rw [ih, List.filter_cons]
          split <;> simp_all

theorem processIndex_eq_filterMap (index : RawIndex) :
    processIndex index = index.filterMap normalizeEntry := by
  induction index with
  | nil => rfl
  | cons e es ih =>
    simp only [processIndex, List.map_cons, List.filterMap_cons] at *
    cases h : normalizeEntry e <;> simp_all

/-! ### Claim theorems -/

/-- C4 (counterexample): the claim reads `methodName` as the segment of
`name` after the last occurrence of the substring `"::"`. For
`name = "a:::b"` the occurrences of `"::"` start at indices 1 and 2, so the
segment after the last occurrence is `"b"`; but the code's
`name.split("::").pop()` splits at non-overlapping occurrences found left
to right (`["a", ":b"]`) and yields `":b"`. -/
theorem methodName_after_last_occurrence_counterexample :
    (normalizeEntry entryOverlap).map (fun it => it.methodName) = some ":b" ∧
    suffixAfterLastOcc entryOverlap.name.data = some "b".data ∧
    entryOverlap.name ≠ "" ∧ (":b" : String) ≠ "b" := by
  refine ⟨?_, ?_, ?_, ?_⟩ <;> decide

/-- C4 (amended): for every raw index entry with non-empty name, the
normalized item's `methodName` is the final segment of `name` split at the
non-overlapping left-to-right occurrences of `"::"`: the split segments
joined with `"::"` reassemble `name`, `methodName` itself contains no
`"::"`, and `methodName` equals `name` itself (it is not absent) when
`name` contains no `"::"`. -/
theorem methodName_last_split_segment :
    ∀ e : RawEntry, e.name ≠ "" →
    ∃ it, normalizeEntry e = some it ∧
      it.methodName.data = (splitOnColons e.name.data).getLastD [] ∧
      joinColons (splitOnColons e.name.data) = e.name.data ∧
      hasColonPair it.methodName.data = false ∧
      (hasColonPair e.name.data = false → it.methodName = e.name) := by
  rintro ⟨id, name, description, tag⟩ he
  simp only [RawEntry.name] at he
  unfold normalizeEntry
  simp only [RawEntry.name, if_neg he]
  refine ⟨_, rfl, rfl, joinColons_splitOnColons _,
    splitOnColons_getLast_no_pair _, ?_⟩
  intro hnp
  show String.mk ((splitOnColons name.data).getLastD []) = name
  rw [splitOnColons_of_no_pair _ hnp]
  cases name
  rfl

/-- C4 (amended, witness): the entry `"DateTime::format"` normalizes with
`methodName = "format"`. -/
theorem methodName_last_split_segment_witness :
    (∃ it, normalizeEntry entryDateTime = some it ∧
      it.methodName.data = (splitOnColons entryDateTime.name.data).getLastD [] ∧
      joinColons (splitOnColons entryDateTime.name.data) =
        entryDateTime.name.data ∧
      hasColonPair it.methodName.data = false ∧
      (hasColonPair entryDateTime.name.data = false →
        it.methodName = entryDateTime.name)) ∧
    (normalizeEntry entryDateTime).map (fun it => it.methodName) =
      some "format" :=
  ⟨methodName_last_split_segment entryDateTime (by decide), by decide⟩

/-- C6: for every raw entry with non-empty name, the normalized item's
`type` is derived from `tag` by the exact case-sensitive mapping
`phpdoc:varentry ↦ Variable`, `refentry ↦ Function`,
`phpdoc:exceptionref ↦ Exception`, `phpdoc:classref ↦ Class`,
`set`/`book`/`reference ↦ Extension`, and any other tag `↦ General`. -/
theorem tagType_mapping :
    ∀ e : RawEntry, e.name ≠ "" →
    ∃ it, normalizeEntry e = some it ∧
      (e.tag = "phpdoc:varentry" → it.type = "Variable") ∧
      (e.tag = "refentry" → it.type = "Function") ∧
      (e.tag = "phpdoc:exceptionref" → it.type = "Exception") ∧
      (e.tag = "phpdoc:classref" → it.type = "Class") ∧
      (e.tag = "set" ∨ e.tag = "book" ∨ e.tag = "reference" →
        it.type = "Extension") ∧
      (e.tag ≠ "phpdoc:varentry" → e.tag ≠ "refentry" →
        e.tag ≠ "phpdoc:exceptionref" → e.tag ≠ "phpdoc:classref" →
        e.tag ≠ "set" → e.tag ≠ "book" → e.tag ≠ "reference" →
        it.type = "General") := by
  intro e he
  unfold normalizeEntry
  rw [if_neg he]
  refine ⟨_, rfl, ?_, ?_, ?_, ?_, ?_, ?_⟩
  · intro h; simp [tagType, h]
  · intro h; simp [tagType, h]
  · intro h; simp [tagType, h]
  · intro h; simp [tagType, h]
  · rintro (h | h | h) <;> simp [tagType, h]
  · intro h1 h2 h3 h4 h5 h6 h7
    simp [tagType, h1, h2, h3, h4, h5, h6, h7]

/-- C6 (witness): `tag = "refentry"` yields `type = "Function"` and an
unmatched tag yields `type = "General"`. -/
theorem tagType_mapping_witness :
    (∃ it, normalizeEntry entryStrlen = some it ∧ it.type = "Function") ∧
    (∃ it, normalizeEntry entryUnknownTag = some it ∧ it.type = "General") := by
  constructor
  · obtain ⟨it, h1, h2⟩ := tagType_mapping entryStrlen (by decide)
    exact ⟨it, h1, h2.2.1 (by decide)⟩
  · obtain ⟨it, h1, h2⟩ := tagType_mapping entryUnknownTag (by decide)
    exact ⟨it, h1, h2.2.2.2.2.2 (by decide) (by decide) (by decide) (by decide)
      (by decide) (by decide) (by decide)⟩

/-- C8: the normalizer outputs exactly one item per input entry with
non-empty name, and no item derived from an entry with an empty (or, in JS,
absent — both falsy, modelled as `""`) name; dropping such entries raises
no error (`processIndex` is total by construction). -/
theorem processIndex_drops_empty_names :
    ∀ index : RawIndex,
      (processIndex index).length =
        (index.filter (fun e => decide (e.name ≠ ""))).length ∧
      ∀ it ∈ processIndex index, it.name ≠ "" := by
  intro index
  rw [processIndex_eq_filterMap]
  constructor
  · induction index with
    | nil => rfl
    | cons e es ih =>
      rw [List.filterMap_cons, List.filter_cons]
      by_cases he : e.name = ""
      · rw [normalizeEntry_eq_none.mpr he]
        simp [he, ih]
      · obtain ⟨it, hit⟩ : ∃ it, normalizeEntry e = some it := by
          cases h : normalizeEntry e
          · exact absurd (normalizeEntry_eq_none.mp h) he
          · exact ⟨_, rfl⟩
        rw [hit]
        simp [he, ih]
  · intro it hit
    obtain ⟨e, _, he⟩ := List.mem_filterMap.mp hit
    obtain ⟨hn, hne⟩ := normalizeEntry_name he
    rw [hn]
    exact hne

/-- C8 (witness): on a two-entry index with one empty name, exactly one
item is produced and its name is non-empty. -/
theorem processIndex_drops_empty_names_witness :
    (processIndex [entryStrlen, entryEmptyName]).length =
      ([entryStrlen, entryEmptyName].filter
        (fun e => decide (e.name ≠ ""))).length ∧
    itemStrlen.name ≠ "" := by
  refine ⟨(processIndex_drops_empty_names [entryStrlen, entryEmptyName]).1, ?_⟩
  exact (processIndex_drops_empty_names [entryStrlen, entryEmptyName]).2
    itemStrlen (by decide)

/-- C7: the ranker's final ordering is a stable descending sort by
(possibly boosted) score: the output is pairwise descending, results with
equal final score appear in exactly the engine's (boosted) order, and in
particular engine output `[A, B, C]` with scores `[5, 5, 7]` and no boosts
sorts to `[C, A, B]`. -/
theorem search_stable_descending_sort :
    (∀ (q : String) (engine : String → List SearchResult),
      (search q engine).Pairwise scoreGE ∧
      ∀ c : Rat, (search q engine).filter (fun r => decide (r.score = c)) =
        ((engine q).map boostResult).filter (fun r => decide (r.score = c))) ∧
    search "q" (fun _ => [⟨mkPlainItem "a", 5⟩, ⟨mkPlainItem "b", 5⟩,
        ⟨mkPlainItem "c", 7⟩]) =
      [⟨mkPlainItem "c", 7⟩, ⟨mkPlainItem "a", 5⟩, ⟨mkPlainItem "b", 5⟩] := by
  refine ⟨fun q engine => ⟨sortDesc_pairwise _, fun c => filter_sortDesc c _⟩, ?_⟩
  have ha : boostResult ⟨mkPlainItem "a", 5⟩ = ⟨mkPlainItem "a", 5⟩ :=
    boostResult_of_not_startsWith (by decide)
  have hb : boostResult ⟨mkPlainItem "b", 5⟩ = ⟨mkPlainItem "b", 5⟩ :=
    boostResult_of_not_startsWith (by decide)
  have hc : boostResult ⟨mkPlainItem "c", 7⟩ = ⟨mkPlainItem "c", 7⟩ :=
    boostResult_of_not_startsWith (by decide)
  simp only [search, List.map, ha, hb, hc]
  norm_num [sortDesc, insertDesc]

/-- C2 (counterexample): with identical base score 5, the result whose id
`"language.types.array"` starts with `"language."` does not sort strictly
above the one whose id `"languagex"` does not start with `"language."`:
the code boosts every id starting with `"language"` (no trailing dot), so
both receive `+10`, the final scores tie, and the stable sort keeps the
engine's order, which here puts the non-`"language."` result first. -/
theorem language_dot_boost_counterexample :
    jsStartsWith itemLangDot.id "language." = true ∧
    jsStartsWith itemLangX.id "language." = false ∧
    search "array" (fun _ => [⟨itemLangX, 5⟩, ⟨itemLangDot, 5⟩]) =
      [⟨itemLangX, 15⟩, ⟨itemLangDot, 15⟩] := by
  refine ⟨by decide, by decide, ?_⟩
  have hx : boostResult ⟨itemLangX, 5⟩ = ⟨itemLangX, 15⟩ := by
    rw [boostResult_of_startsWith (by decide)]
    norm_num
  have hd : boostResult ⟨itemLangDot, 5⟩ = ⟨itemLangDot, 15⟩ := by
    rw [boostResult_of_startsWith (by decide)]
    norm_num
  simp only [search, List.map, hx, hd]
  norm_num [sortDesc, insertDesc]

/-- C2 (amended): for two results of one search call with identical base
score, where one item's id starts with `"language."` and the other item's
id does not start with `"language"` (the boost prefix in the code has no
trailing dot), the boosted `"language."` result appears strictly before the
other in the final sorted list. -/
theorem language_dot_boost_orders_results (q : String)
    (engine : String → List SearchResult) (a b : SearchResult)
    (ha : a ∈ engine q) (hb : b ∈ engine q) (hscore : a.score = b.score)
    (hA : jsStartsWith a.item.id "language." = true)
    (hB : jsStartsWith b.item.id "language" = false) :
    boostResult a ∈ search q engine ∧ b ∈ search q engine ∧
    ∀ i j : Fin (search q engine).length,
      (search q engine).get i = boostResult a →
      (search q engine).get j = b → (i : ℕ) < (j : ℕ) := by
  have hA' : jsStartsWith a.item.id "language" = true := by
    unfold jsStartsWith at hA ⊢
    have h1 : ("language" : String).data <+: ("language." : String).data :=
      List.isPrefixOf_iff_prefix.mp (by decide)
    have h2 : ("language." : String).data <+: a.item.id.data :=
      List.isPrefixOf_iff_prefix.mp hA
    exact List.isPrefixOf_iff_prefix.mpr (h1.trans h2)
  have hba : boostResult a = { a with score := a.score + 10 } :=
    boostResult_of_startsWith hA'
  have hbb : boostResult b = b := boostResult_of_not_startsWith hB
  have hperm := sortDesc_perm ((engine q).map boostResult)
  have hmemA : boostResult a ∈ search q engine :=
    hperm.mem_iff.mpr (List.mem_map_of_mem boostResult ha)
  have hmemB : b ∈ search q engine := by
    have := List.mem_map_of_mem boostResult hb
    rw [hbb] at this
    exact hperm.mem_iff.mpr this
  refine ⟨hmemA, hmemB, ?_⟩
  intro i j hi hj
  have hsorted : (search q engine).Pairwise scoreGE := sortDesc_pairwise _
  have hscoreA : (boostResult a).score = a.score + 10 := by rw [hba]
  rcases lt_trichotomy (i : ℕ) (j : ℕ) with h | h | h
  · exact h
  · exfalso
    have : boostResult a = b := by
      rw [← hi, ← hj]
      congr 1
      exact Fin.ext h
    have : a.score + 10 = b.score := by rw [← hscoreA, this]
    rw [hscore] at this
    simp at this
  · exfalso
    have hij : (j : Fin (search q engine).length) < i := h
    have := List.pairwise_iff_get.mp hsorted j i hij
    rw [hi, hj] at this
    unfold scoreGE at this
    rw [hscoreA, hscore] at this
    have : (10 : Rat) ≤ 0 := by linarith
    norm_num at this

/-- C2 (amended, witness): with tied base scores, the `"language."` item
and a non-`"language"` item both land in the sorted output. -/
theorem language_dot_boost_orders_results_witness :
    boostResult ⟨itemLangDot, 5⟩ ∈ search "array" engineTwoSample ∧
    (⟨itemArrayMap, 5⟩ : SearchResult) ∈ search "array" engineTwoSample := by
  have h := language_dot_boost_orders_results "array" engineTwoSample
    ⟨itemLangDot, 5⟩ ⟨itemArrayMap, 5⟩ (by decide) (by decide) (by decide)
    (by decide) (by decide)
  exact ⟨h.1, h.2.1⟩

/-- C9: each search call's result scores depend only on that call's engine
output: the output is a permutation of the singly-boosted engine results
(the `+10` boost applies exactly once per result per call, never
accumulating), and the underlying items pass through unchanged — the boost
updates the per-call result record, never an item of the loaded
collection. -/
theorem search_boost_once_items_unchanged :
    ∀ (q : String) (engine : String → List SearchResult),
      List.Perm (search q engine) ((engine q).map boostResult) ∧
      List.Perm ((search q engine).map (fun r => r.item))
        ((engine q).map (fun r => r.item)) ∧
      ∀ r ∈ search q engine, ∃ r0 ∈ engine q, r.item = r0.item ∧
        ((jsStartsWith r0.item.id "language" = true ∧
            r.score = r0.score + 10) ∨
         (jsStartsWith r0.item.id "language" = false ∧
            r.score = r0.score)) := by
  intro q engine
  have hperm := sortDesc_perm ((engine q).map boostResult)
  refine ⟨hperm, ?_, ?_⟩
  · have h2 := hperm.map (fun r => r.item)
    rw [List.map_map] at h2
    have hcomp : ((fun r : SearchResult => r.item) ∘ boostResult) =
        fun r : SearchResult => r.item := by
      funext r
      exact boostResult_item r
    rw [hcomp] at h2
    exact h2
  · intro r hr
    obtain ⟨r0, hr0, hbr⟩ := List.mem_map.mp (hperm.mem_iff.mp hr)
    refine ⟨r0, hr0, ?_, ?_⟩
    · rw [← hbr, boostResult_item]
    · cases hj : jsStartsWith r0.item.id "language"
      · exact Or.inr ⟨rfl, by rw [← hbr, boostResult_of_not_startsWith hj]⟩
      · exact Or.inl ⟨rfl, by rw [← hbr, boostResult_of_startsWith hj]⟩

/-- C9 (witness): on a one-result engine output the search result keeps the
engine's item and, being unboosted, the engine's score. -/
theorem search_boost_once_items_unchanged_witness :
    ∃ r0 ∈ engineOnePlain "x",
      (⟨itemArrayMap, 5⟩ : SearchResult).item = r0.item ∧
      ((jsStartsWith r0.item.id "language" = true ∧
          (⟨itemArrayMap, 5⟩ : SearchResult).score = r0.score + 10) ∨
       (jsStartsWith r0.item.id "language" = false ∧
          (⟨itemArrayMap, 5⟩ : SearchResult).score = r0.score)) :=
  (search_boost_once_items_unchanged "x" engineOnePlain).2.2
    ⟨itemArrayMap, 5⟩ (by decide)

/-! ### Lemmas about the loader -/

theorem fallback_at_en (env : LoadEnv) (st : Store) :
    loadLanguageIndexWithFallback env st "en" = loadLanguageIndex env st "en" := by
  rw [loadLanguageIndexWithFallback.eq_def]
  cases h : loadLanguageIndex env st "en" with
  | ok r => rfl
  | error e => simp

theorem fallback_ok_step (env : LoadEnv) (st : Store) (language : String)
    (r : List SearchItem × Store)
    (h : loadLanguageIndex env st language = .ok r) :
    loadLanguageIndexWithFallback env st language = .ok r := by
  rw [loadLanguageIndexWithFallback.eq_def, h]

theorem fallback_error_step (env : LoadEnv) (st : Store) (language : String)
    (e : LoadError) (h : loadLanguageIndex env st language = .error e)
    (hne : language ≠ "en") :
    loadLanguageIndexWithFallback env st language =
      loadLanguageIndexWithFallback env st "en" := by
  rw [loadLanguageIndexWithFallback.eq_def, h]
  simp [hne]

theorem attempts_at_en (env : LoadEnv) (st : Store) :
    loadAttemptLanguages env st "en" = ["en"] := by
  rw [loadAttemptLanguages.eq_def]
  cases h : loadLanguageIndex env st "en" with
  | ok r => rfl
  | error e => simp

theorem attempts_ok_step (env : LoadEnv) (st : Store) (language : String)
    (r : List SearchItem × Store)
    (h : loadLanguageIndex env st language = .ok r) :
    loadAttemptLanguages env st language = [language] := by
  rw [loadAttemptLanguages.eq_def, h]

theorem attempts_error_step (env : LoadEnv) (st : Store) (language : String)
    (e : LoadError) (h : loadLanguageIndex env st language = .error e)
    (hne : language ≠ "en") :
    loadAttemptLanguages env st language =
      language :: loadAttemptLanguages env st "en" := by
  rw [loadAttemptLanguages.eq_def, h]
  simp [hne]

theorem fetchAndCache_map_fst (env : LoadEnv) (st : Store) (language : String)
    (b : Bool) :
    Except.map Prod.fst (fetchAndCache { env with writeFails := b } st language)
      = Except.map Prod.fst (fetchAndCache env st language) := by
  unfold fetchAndCache
  cases h : env.fetchResult language <;> simp [h, Except.map]

theorem fetchAndCache_ok_map_fst (env : LoadEnv) (st : Store)
    (language : String) (raw : RawIndex)
    (h : env.fetchResult language = some raw) :
    Except.map Prod.fst (fetchAndCache env st language) =
      .ok (processIndex raw) := by
  unfold fetchAndCache
  rw [h]
  simp [Except.map]

theorem loadLanguageIndex_map_fst_writeFails (env : LoadEnv) (st : Store)
    (language : String) (b : Bool) :
    Except.map Prod.fst (loadLanguageIndex { env with writeFails := b } st language)
      = Except.map Prod.fst (loadLanguageIndex env st language) := by
  unfold loadLanguageIndex
  cases hv : storeGet st ("search-" ++ language) with
  | none => exact fetchAndCache_map_fst env st language b
  | some v =>
    cases v with
    | emptyString => exact fetchAndCache_map_fst env st language b
    | invalidJson => rfl
    | entry data time =>
      simp only
      by_cases ht : env.now < time + CACHE_DAYS * MILLISECONDS_PER_DAY
      · rw [if_pos ht, if_pos ht]
      · rw [if_neg ht, if_neg ht]
        exact fetchAndCache_map_fst env st language b

/-- C1: on every load, if `loadLanguageIndex` for `language` fails and
`language ≠ "en"`, the fallback loader retries exactly once with `"en"`
(its outcome — resolution with the `"en"` items or rejection — is exactly
that of the single `"en"` load); for `language = "en"` the single load's
failure propagates with no retry; and in every case at most two load
attempts are made. -/
theorem fallback_retries_once_with_english :
    ∀ (env : LoadEnv) (st : Store) (language : String),
      (loadAttemptLanguages env st language).length ≤ 2 ∧
      (∀ r, loadLanguageIndex env st language = .ok r →
        loadLanguageIndexWithFallback env st language = .ok r ∧
        loadAttemptLanguages env st language = [language]) ∧
      (∀ e, loadLanguageIndex env st language = .error e → language ≠ "en" →
        loadLanguageIndexWithFallback env st language =
          loadLanguageIndex env st "en" ∧
        loadAttemptLanguages env st language = [language, "en"]) ∧
      loadLanguageIndexWithFallback env st "en" =
        loadLanguageIndex env st "en" := by
  intro env st language
  refine ⟨?_, ?_, ?_, fallback_at_en env st⟩
  · by_cases hen : language = "en"
    · subst hen
      rw [attempts_at_en]
      simp
    · cases h : loadLanguageIndex env st language with
      | ok r => rw [attempts_ok_step env st language r h]; simp
      | error e =>
        rw [attempts_error_step env st language e h hen, attempts_at_en]
        simp
  · intro r h
    exact ⟨fallback_ok_step env st language r h,
      attempts_ok_step env st language r h⟩
  · intro e h hne
    refine ⟨?_, ?_⟩
    · rw [fallback_error_step env st language e h hne, fallback_at_en]
    · rw [attempts_error_step env st language e h hne, attempts_at_en]

/-- C1 (witness): with the `fr` endpoint failing and `en` succeeding, the
fallback makes exactly the two attempts `["fr", "en"]` and resolves with
the `en` load's result. -/
theorem fallback_retries_once_with_english_witness :
    loadLanguageIndexWithFallback envEnOnly [] "fr" =
      loadLanguageIndex envEnOnly [] "en" ∧
    loadAttemptLanguages envEnOnly [] "fr" = ["fr", "en"] ∧
    loadLanguageIndexWithFallback envEnOnly [] "en" =
      loadLanguageIndex envEnOnly [] "en" := by
  have h := fallback_retries_once_with_english envEnOnly [] "fr"
  exact ⟨(h.2.2.1 .fetchFailed (by decide) (by decide)).1,
    (h.2.2.1 .fetchFailed (by decide) (by decide)).2,
    (fallback_retries_once_with_english envEnOnly [] "en").2.2.2⟩

/-- C3: a cache write of items `I` for language `L` (what a successful
fetch stores) followed by a read strictly before the write time plus
14 days returns exactly `I` with no fetch; a read at or after that moment
falls through to the fetch path exactly as a miss does; and an absent key
falls through to the fetch path as well. -/
theorem cache_ttl_read :
    ∀ (env : LoadEnv) (st : Store) (language : String)
      (items : List SearchItem) (t0 : Int),
      (env.now < t0 + CACHE_DAYS * MILLISECONDS_PER_DAY →
        loadLanguageIndex env
          (storeSet st ("search-" ++ language) (.entry items t0)) language =
          .ok (items, storeSet st ("search-" ++ language) (.entry items t0))) ∧
      (t0 + CACHE_DAYS * MILLISECONDS_PER_DAY ≤ env.now →
        loadLanguageIndex env
          (storeSet st ("search-" ++ language) (.entry items t0)) language =
          fetchAndCache env
            (storeSet st ("search-" ++ language) (.entry items t0)) language) ∧
      (storeGet st ("search-" ++ language) = none →
        loadLanguageIndex env st language = fetchAndCache env st language) := by
  intro env st language items t0
  have hget : storeGet (storeSet st ("search-" ++ language) (.entry items t0))
      ("search-" ++ language) = some (.entry items t0) := by
    simp [storeGet, storeSet, List.lookup]
  refine ⟨?_, ?_, ?_⟩
  · intro hlt
    unfold loadLanguageIndex
    rw [hget]
    simp only
    rw [if_pos hlt]
  · intro hge
    unfold loadLanguageIndex
    rw [hget]
    simp only
    rw [if_neg (not_lt.mpr hge)]
  · intro hmiss
    unfold loadLanguageIndex
    rw [hmiss]

/-- C3 (witness): a fresh entry is read back verbatim; an expired entry and
an absent key both divert to the fetch path. -/
theorem cache_ttl_read_witness :
    loadLanguageIndex envEnOnly
      (storeSet [] ("search-" ++ "fr") (.entry [itemStrlen] 0)) "fr" =
      .ok ([itemStrlen], storeSet [] ("search-" ++ "fr")
        (.entry [itemStrlen] 0)) ∧
    loadLanguageIndex { envEnOnly with now := 1209600000 }
      (storeSet [] ("search-" ++ "fr") (.entry [itemStrlen] 0)) "fr" =
      fetchAndCache { envEnOnly with now := 1209600000 }
        (storeSet [] ("search-" ++ "fr") (.entry [itemStrlen] 0)) "fr" ∧
    loadLanguageIndex envEnOnly [] "fr" = fetchAndCache envEnOnly [] "fr" := by
  exact ⟨(cache_ttl_read envEnOnly [] "fr" [itemStrlen] 0).1 (by decide),
    (cache_ttl_read { envEnOnly with now := 1209600000 } [] "fr"
      [itemStrlen] 0).2.1 (by decide),
    (cache_ttl_read envEnOnly [] "fr" [itemStrlen] 0).2.2 (by decide)⟩

/-- C5: the items a load resolves with do not depend on whether the
best-effort cache write throws (quota exceeded, storage disabled, ...),
and in particular a load that fetched successfully on a cache miss
resolves with the freshly fetched, normalized items for either write
outcome — the write failure never propagates past the loader. -/
theorem cache_write_failure_swallowed :
    ∀ (env : LoadEnv) (st : Store) (language : String),
      Except.map Prod.fst
          (loadLanguageIndex { env with writeFails := true } st language) =
        Except.map Prod.fst
          (loadLanguageIndex { env with writeFails := false } st language) ∧
      ∀ raw, env.fetchResult language = some raw →
        storeGet st ("search-" ++ language) = none →
        ∀ b, Except.map Prod.fst
            (loadLanguageIndex { env with writeFails := b } st language) =
          .ok (processIndex raw) := by
  intro env st language
  refine ⟨?_, ?_⟩
  · rw [loadLanguageIndex_map_fst_writeFails env st language true,
      loadLanguageIndex_map_fst_writeFails env st language false]
  · intro raw hraw hmiss b
    have henv : ({ env with writeFails := b } : LoadEnv).fetchResult language
        = some raw := hraw
    calc Except.map Prod.fst
          (loadLanguageIndex { env with writeFails := b } st language)
        = Except.map Prod.fst
            (fetchAndCache { env with writeFails := b } st language) := by
          unfold loadLanguageIndex
          rw [hmiss]
      _ = .ok (processIndex raw) :=
          fetchAndCache_ok_map_fst { env with writeFails := b } st language
            raw henv

/-- C5 (witness): with the write throwing, a miss-then-fetch load still
resolves with the normalized fetched items. -/
theorem cache_write_failure_swallowed_witness :
    Except.map Prod.fst
        (loadLanguageIndex { envEnOnly with writeFails := true } [] "en") =
      .ok (processIndex sampleRawEn) :=
  (cache_write_failure_swallowed envEnOnly [] "en").2 sampleRawEn
    (by decide) (by decide) true

/-- C10 (counterexample): the claim quantifies over every stored value that
is not valid JSON, but the stored empty string `""` is not valid JSON
(`JSON.parse("")` throws) and yet is falsy, so the `if (cache)` guard skips
the parse: the load treats it as a cache miss, fetches over the network,
and resolves — it neither raises during cache parsing nor rejects. -/
theorem corrupt_cache_empty_string_counterexample :
    storeGet [("search-en", StoredValue.emptyString)] "search-en" =
      some .emptyString ∧
    loadLanguageIndex envEnOnly [("search-en", .emptyString)] "en" =
      fetchAndCache envEnOnly [("search-en", .emptyString)] "en" ∧
    (loadLanguageIndexWithFallback envEnOnly
      [("search-en", .emptyString)] "en").isOk = true := by
  refine ⟨by decide, by decide, ?_⟩
  rw [fallback_at_en]
  decide

/-- C10 (amended): if the store holds a nonempty value that is not valid
JSON under `search-<language>`, the load raises during cache parsing
instead of treating it as a miss — no fetch is attempted (the result is
`cacheCorrupt` for every network environment) — so a corrupted non-`"en"`
entry diverts to the `"en"` fallback and a corrupted `"en"` entry makes
the load reject outright. (A stored empty string, being falsy, is instead
treated as a miss and fetched over the network.) -/
theorem corrupt_cache_entry_raises :
    ∀ (env : LoadEnv) (st : Store) (language : String),
      storeGet st ("search-" ++ language) = some .invalidJson →
      loadLanguageIndex env st language = .error .cacheCorrupt ∧
      (language ≠ "en" →
        loadLanguageIndexWithFallback env st language =
          loadLanguageIndexWithFallback env st "en") ∧
      (language = "en" →
        loadLanguageIndexWithFallback env st language =
          .error .cacheCorrupt) := by
  intro env st language h
  have h1 : loadLanguageIndex env st language = .error .cacheCorrupt := by
    unfold loadLanguageIndex
    rw [h]
  refine ⟨h1, ?_, ?_⟩
  · intro hne
    exact fallback_error_step env st language _ h1 hne
  · intro hen
    subst hen
    rw [fallback_at_en, h1]

/-- C10 (amended, witness): a corrupt `fr` entry raises and diverts the
fallback to `en`; a corrupt `en` entry rejects the whole load. -/
theorem corrupt_cache_entry_raises_witness :
    (loadLanguageIndex envEnOnly [("search-fr", StoredValue.invalidJson)] "fr"
        = .error .cacheCorrupt ∧
      loadLanguageIndexWithFallback envEnOnly
          [("search-fr", StoredValue.invalidJson)] "fr" =
        loadLanguageIndexWithFallback envEnOnly
          [("search-fr", StoredValue.invalidJson)] "en") ∧
    loadLanguageIndexWithFallback envEnOnly
        [("search-en", StoredValue.invalidJson)] "en" =
      .error .cacheCorrupt := by
  refine ⟨⟨?_, ?_⟩, ?_⟩
  · exact (corrupt_cache_entry_raises envEnOnly
      [("search-fr", StoredValue.invalidJson)] "fr" (by decide)).1
  · exact (corrupt_cache_entry_raises envEnOnly
      [("search-fr", StoredValue.invalidJson)] "fr" (by decide)).2.1 (by decide)
  · exact (corrupt_cache_entry_raises envEnOnly
      [("search-en", StoredValue.invalidJson)] "en" (by decide)).2.2 rfl

end PHPSearch
